import Mathlib

/-!
Verification of the market-analysis core of the Vaalstreetbets repository.

The Python source (`arbitrage.py`, `trend_analyzer.py`, `main.py`) is shallowly
embedded below.  Python dicts are insertion-ordered association lists, numbers
are rationals (exact arithmetic), and code that can raise returns `Except PyErr`;
`PyErr.zeroDivisionErr` models Python's `ZeroDivisionError` and
`PyErr.valueErr` models `ValueError` (e.g. failed tuple unpacking).
-/

/-- Exceptions the embedded code can raise. -/
inductive PyErr where
  | zeroDivisionErr : PyErr
  | valueErr : PyErr
deriving Repr, DecidableEq

/-- An insertion-ordered mapping (Python `dict`) with `String` keys. -/
abbrev Dict (α : Type) := List (String × α)

/-- `d[k]` lookup, `none` when the key is absent (first matching key wins). -/
def alGet {α : Type} (d : Dict α) (k : String) : Option α :=
  match d with
  | [] => none
  | (k', v) :: rest => if k' = k then some v else alGet rest k

/-- `d[k] = v` assignment: replaces the value in place when the key exists,
appends at the end otherwise — exactly Python's insertion-order semantics. -/
def alSet {α : Type} (d : Dict α) (k : String) (v : α) : Dict α :=
  match d with
  | [] => [(k, v)]
  | (k', v') :: rest => if k' = k then (k, v) :: rest else (k', v') :: alSet rest k v

/-- One directed price edge of the market graph
(`processed_markets[a][b]` in `arbitrage.py`). -/
structure Edge where
  min_price : ℚ
  max_price : ℚ
  volume : Dict ℚ
deriving Repr, DecidableEq

/-- The processed market graph: currency → currency → edge. -/
abbrev Graph := Dict (Dict Edge)

/-- `processed_markets[a][b]` (chained dict lookups). -/
def gGet (g : Graph) (a b : String) : Option Edge :=
  (alGet g a).bind fun row => alGet row b

/-- `processed_markets[a][b] = e` (with the source's
`if a not in processed_markets: processed_markets[a] = {}` row creation). -/
def gSet (g : Graph) (a b : String) (e : Edge) : Graph :=
  alSet g a (alSet ((alGet g a).getD []) b e)

/-- One raw market record of the hourly payload (`market` in
`_process_markets`); absent JSON fields are `none` / empty dicts. -/
structure RawMarket where
  league : Option String
  market_id : Option String
  lowest_ratios : Dict ℚ
  highest_ratios : Dict ℚ
  volume_traded : Dict ℚ
deriving Repr, DecidableEq

/-- The raw hourly payload (`market_data`); only the `markets` list is read. -/
structure RawPayload where
  markets : List RawMarket
deriving Repr, DecidableEq

/-- The per-reason skip counters of `_process_markets`. -/
structure SkipCounts where
  wrong_league : Nat
  invalid_id : Nat
  missing_ratios : Nat
  zero_ratios : Nat
deriving Repr, DecidableEq

/-- Python `market_id.split('|')`. -/
def pySplit (s : String) : List String :=
  (s.toList.splitOn '|').map (fun cs => String.mk cs)

/-- Processing of one record of the loop body of `_process_markets`
(`arbitrage.py` lines 146–198).  Faithful points: the zero-ratio guard
(line 171) checks only `currency_a`'s entries; the reciprocal edge
(line 198) divides by `min_price`/`max_price` unguarded; an id that
contains `'|'` but does not split into exactly two tokens makes the
unpacking `currency_a, currency_b = market_id.split('|')` raise. -/
def processOne (league : String) (st : Graph × SkipCounts) (market : RawMarket) :
    Except PyErr (Graph × SkipCounts) :=
  let g := st.1
  let sk := st.2
  if market.league ≠ some league then
    .ok (g, { sk with wrong_league := sk.wrong_league + 1 })
  else
    match market.market_id with
    | none => .ok (g, { sk with invalid_id := sk.invalid_id + 1 })
    | some mid =>
      if mid = "" ∨ ¬ mid.toList.contains '|' then
        .ok (g, { sk with invalid_id := sk.invalid_id + 1 })
      else
        match pySplit mid with
        | [a, b] =>
          if alGet market.lowest_ratios a = none ∨ alGet market.lowest_ratios b = none ∨
             alGet market.highest_ratios a = none ∨ alGet market.highest_ratios b = none then
            .ok (g, { sk with missing_ratios := sk.missing_ratios + 1 })
          else
            let la := (alGet market.lowest_ratios a).getD 0
            let lb := (alGet market.lowest_ratios b).getD 0
            let ha := (alGet market.highest_ratios a).getD 0
            let hb := (alGet market.highest_ratios b).getD 0
            if la = 0 ∨ ha = 0 then
              .ok (g, { sk with zero_ratios := sk.zero_ratios + 1 })
            else
              let maxP := lb / la
              let minP := hb / ha
              if minP = 0 ∨ maxP = 0 then
                .error .zeroDivisionErr
              else
                let fwd : Edge := ⟨minP, maxP, market.volume_traded⟩
                let rev : Edge := ⟨1 / maxP, 1 / minP, market.volume_traded⟩
                .ok (gSet (gSet g a b fwd) b a rev, sk)
        | _ => .error .valueErr

/-- The record loop of `_process_markets`. -/
def processList (league : String) :
    List RawMarket → Graph → SkipCounts → Except PyErr (Graph × SkipCounts)
  | [], g, sk => .ok (g, sk)
  | mkt :: rest, g, sk =>
    match processOne league (g, sk) mkt with
    | .error e => .error e
    | .ok (g', sk') => processList league rest g' sk'

/-- `MarketAnalyzer._process_markets`. -/
def process_markets (league : String) (pd : RawPayload) :
    Except PyErr (Graph × SkipCounts) :=
  processList league pd.markets [] ⟨0, 0, 0, 0⟩

/-- Python `tuple(sorted((a, b)))` on a pair of currency names:
lexicographic comparison by code points. -/
def charLe : List Char → List Char → Bool
  | [], _ => true
  | _ :: _, [] => false
  | c :: cs, d :: ds =>
    if c.toNat < d.toNat then true
    else if d.toNat < c.toNat then false
    else charLe cs ds

/-- String comparison used by Python's `sorted`. -/
def strLe (a b : String) : Bool := charLe a.toList b.toList

/-- `tuple(sorted((a, b)))`. -/
def sortPair (a b : String) : String × String :=
  if strLe a b then (a, b) else (b, a)

theorem alGet_alSet {α : Type} (d : Dict α) (k : String) (v : α) (k' : String) :
    alGet (alSet d k v) k' = if k' = k then some v else alGet d k' := by
  induction d with
  | nil =>
    simp only [alSet, alGet]
    by_cases h : k' = k
    · subst h
      simp
    · rw [if_neg (fun h' => h h'.symm), if_neg h]
  | cons p rest ih =>
    obtain ⟨pk, pv⟩ := p
    simp only [alSet]
    by_cases hpk : pk = k
    · subst hpk
      simp only [if_pos rfl, alGet]
      by_cases h : k' = pk
      · subst h
        rw [if_pos rfl, if_pos rfl]
      · rw [if_neg (fun h' => h h'.symm), if_neg h, if_neg (fun h' => h h'.symm)]
    · simp only [if_neg hpk, alGet]
      by_cases h : pk = k'
      · subst h
        rw [if_pos rfl, if_neg (fun h' => hpk h'), if_pos rfl]
      · rw [if_neg h, if_neg h, ih]

theorem gGet_gSet (g : Graph) (a b : String) (e : Edge) (x y : String) :
    gGet (gSet g a b e) x y = if x = a ∧ y = b then some e else gGet g x y := by
  unfold gGet gSet
  rw [alGet_alSet]
  by_cases hx : x = a
  · subst hx
    rw [if_pos rfl]
    show alGet (alSet ((alGet g x).getD []) b e) y = _
    rw [alGet_alSet]
    by_cases hy : y = b
    · rw [if_pos hy, if_pos ⟨rfl, hy⟩]
    · rw [if_neg hy, if_neg (fun h => hy h.2)]
      cases h : alGet g x with
      | none => simp [h, alGet]
      | some row => simp [h]
  · rw [if_neg hx, if_neg (fun h => hx h.1)]

/-- The reciprocal-pair invariant maintained by `_process_markets`:
every stored edge has nonzero prices and a stored reverse edge whose
prices are the exact reciprocals, sharing the volume map. -/
def EdgeSym (g : Graph) : Prop :=
  ∀ a b e, gGet g a b = some e →
    e.min_price ≠ 0 ∧ e.max_price ≠ 0 ∧
    ∃ e', gGet g b a = some e' ∧
      e'.min_price = 1 / e.max_price ∧
      e'.max_price = 1 / e.min_price ∧
      e'.volume = e.volume

theorem edgeSym_insertPair (g : Graph) (a b : String) (m M : ℚ) (v : Dict ℚ)
    (hsym : EdgeSym g) (hm : m ≠ 0) (hM : M ≠ 0)
    (hab : a = b → m = 1 ∧ M = 1) :
    EdgeSym (gSet (gSet g a b ⟨m, M, v⟩) b a ⟨1 / M, 1 / m, v⟩) := by
  intro x y e hxy
  rw [gGet_gSet, gGet_gSet] at hxy
  by_cases h1 : x = b ∧ y = a
  · rw [if_pos h1] at hxy
    obtain ⟨hx, hy⟩ := h1
    injection hxy with he
    subst he
    subst hx; subst hy
    refine ⟨one_div_ne_zero hM, one_div_ne_zero hm, ?_⟩
    rw [gGet_gSet, gGet_gSet]
    by_cases hba : y = x
    · -- self pair: a = b, so m = M = 1
      obtain ⟨hm1, hM1⟩ := hab hba
      subst hm1; subst hM1; subst hba
      rw [if_pos ⟨rfl, rfl⟩]
      exact ⟨⟨1 / 1, 1 / 1, v⟩, rfl, by norm_num, by norm_num, rfl⟩
    · have hn : ¬ (y = x ∧ x = y) := fun h => hba h.1
      rw [if_neg hn, if_pos ⟨rfl, rfl⟩]
      exact ⟨⟨m, M, v⟩, rfl, by rw [one_div_one_div], by rw [one_div_one_div], rfl⟩
  · rw [if_neg h1] at hxy
    by_cases h2 : x = a ∧ y = b
    · rw [if_pos h2] at hxy
      obtain ⟨hx, hy⟩ := h2
      injection hxy with he
      subst he
      refine ⟨hm, hM, ?_⟩
      rw [gGet_gSet]
      subst hx; subst hy
      rw [if_pos ⟨rfl, rfl⟩]
      exact ⟨⟨1 / M, 1 / m, v⟩, rfl, rfl, rfl, rfl⟩
    · rw [if_neg h2] at hxy
      obtain ⟨hz1, hz2, e', hget, hmin, hmax, hvol⟩ := hsym x y e hxy
      refine ⟨hz1, hz2, e', ?_, hmin, hmax, hvol⟩
      rw [gGet_gSet, gGet_gSet]
      have hn1 : ¬ (y = b ∧ x = a) := fun ⟨hyb, hxa⟩ => h2 ⟨hxa, hyb⟩
      have hn2 : ¬ (y = a ∧ x = b) := fun ⟨hya, hxb⟩ => h1 ⟨hxb, hya⟩
      rw [if_neg hn1, if_neg hn2]
      exact hget

theorem processOne_sym (league : String) (g : Graph) (sk : SkipCounts)
    (mkt : RawMarket) (g' : Graph) (sk' : SkipCounts)
    (hsym : EdgeSym g)
    (h : processOne league (g, sk) mkt = .ok (g', sk')) : EdgeSym g' := by
  unfold processOne at h
  dsimp only at h
  split at h
  · injection h with h'; injection h' with h1 h2; subst h1; exact hsym
  · split at h
    · injection h with h'; injection h' with h1 h2; subst h1; exact hsym
    · rename_i mid _
      split at h
      · injection h with h'; injection h' with h1 h2; subst h1; exact hsym
      · split at h
        · rename_i a b
          split at h
          · injection h with h'; injection h' with h1 h2; subst h1; exact hsym
          · split at h
            · injection h with h'; injection h' with h1 h2; subst h1; exact hsym
            · rename_i hratios hzero
              split at h
              · exact absurd h (by simp)
              · rename_i hdiv
                push_neg at hdiv
                push_neg at hzero
                injection h with h'
                injection h' with h1 h2
                subst h1
                apply edgeSym_insertPair _ _ _ _ _ _ hsym hdiv.1 hdiv.2
                intro hab
                subst hab
                constructor
                · exact div_self hzero.2
                · exact div_self hzero.1
        · exact absurd h (by simp)

theorem processList_sym (league : String) :
    ∀ (l : List RawMarket) (g : Graph) (sk : SkipCounts) (g' : Graph) (sk' : SkipCounts),
      EdgeSym g → processList league l g sk = .ok (g', sk') → EdgeSym g' := by
  intro l
  induction l with
  | nil =>
    intro g sk g' sk' hsym h
    unfold processList at h
    injection h with h'
    injection h' with h1 h2
    subst h1
    exact hsym
  | cons mkt rest ih =>
    intro g sk g' sk' hsym h
    unfold processList at h
    cases hstep : processOne league (g, sk) mkt with
    | error e => rw [hstep] at h; exact absurd h (by simp)
    | ok p =>
      rw [hstep] at h
      exact ih p.1 p.2 g' sk' (processOne_sym league g sk mkt p.1 p.2 hsym hstep) h

theorem edgeSym_empty : EdgeSym [] := by
  intro a b e h
  simp [gGet, alGet] at h

/-- **C1.** For every graph built from a raw hourly payload, every stored
forward edge (A→B) has a stored reverse edge (B→A) with
`min_price_rev = 1/max_price_fwd`, `max_price_rev = 1/min_price_fwd`, and
the same volume map. -/
theorem reverse_edge_reciprocal (league : String) (pd : RawPayload)
    (g : Graph) (sk : SkipCounts)
    (hbuild : process_markets league pd = .ok (g, sk))
    (a b : String) (e : Edge) (hedge : gGet g a b = some e) :
    ∃ e', gGet g b a = some e' ∧
      e'.min_price = 1 / e.max_price ∧
      e'.max_price = 1 / e.min_price ∧
      e'.volume = e.volume := by
  have hsym : EdgeSym g :=
    processList_sym league pd.markets [] ⟨0, 0, 0, 0⟩ g sk edgeSym_empty hbuild
  exact (hsym a b e hedge).2.2

/-- **C10.** In a built graph, the spread `max_price/min_price - 1` computed
from the A→B edge equals, in exact arithmetic, the spread computed from the
reciprocal B→A edge, so pair-level spread values do not depend on which
direction of the stored pair an iteration reaches first. -/
theorem spread_direction_invariant (league : String) (pd : RawPayload)
    (g : Graph) (sk : SkipCounts)
    (hbuild : process_markets league pd = .ok (g, sk))
    (a b : String) (e e' : Edge)
    (h1 : gGet g a b = some e) (h2 : gGet g b a = some e') :
    e'.max_price / e'.min_price - 1 = e.max_price / e.min_price - 1 := by
  have hsym : EdgeSym g :=
    processList_sym league pd.markets [] ⟨0, 0, 0, 0⟩ g sk edgeSym_empty hbuild
  obtain ⟨hmin0, hmax0, e'', hge, hm, hM, _⟩ := hsym a b e h1
  rw [h2] at hge
  injection hge with he
  subst he
  rw [hm, hM]
  have hkey : 1 / e.min_price / (1 / e.max_price) = e.max_price / e.min_price := by
    field_simp
  rw [hkey]

/-- Concrete one-market payload: `chaos|gem`, lowest ratios chaos:1 gem:3,
highest ratios chaos:1 gem:2 (so the chaos→gem edge has min 2 and max 3). -/
def payGood : RawPayload :=
  ⟨[⟨some "L", some "chaos|gem",
     [("chaos", 1), ("gem", 3)], [("chaos", 1), ("gem", 2)], [("chaos", 5)]⟩]⟩

/-- The graph `_process_markets` builds from `payGood`. -/
def graphGood : Graph :=
  [("chaos", [("gem", ⟨2, 3, [("chaos", 5)]⟩)]),
   ("gem", [("chaos", ⟨1 / 3, 1 / 2, [("chaos", 5)]⟩)])]

/-- Witness for C1 at the concrete payload `payGood`. -/
theorem reverse_edge_reciprocal_witness :
    ∃ e', gGet graphGood "gem" "chaos" = some e' ∧
      e'.min_price = 1 / (3 : ℚ) ∧ e'.max_price = 1 / (2 : ℚ) ∧
      e'.volume = [("chaos", 5)] :=
  reverse_edge_reciprocal "L" payGood graphGood ⟨0, 0, 0, 0⟩ (by with_unfolding_all rfl)
    "chaos" "gem" ⟨2, 3, [("chaos", 5)]⟩ (by with_unfolding_all rfl)

/-- Witness for C10 at the concrete payload `payGood`: both directions of the
stored pair give spread 1/2. -/
theorem spread_direction_invariant_witness :
    (1 / 2 : ℚ) / (1 / 3) - 1 = (3 : ℚ) / 2 - 1 :=
  spread_direction_invariant "L" payGood graphGood ⟨0, 0, 0, 0⟩ (by with_unfolding_all rfl)
    "chaos" "gem" ⟨2, 3, [("chaos", 5)]⟩ ⟨1 / 3, 1 / 2, [("chaos", 5)]⟩
    (by with_unfolding_all rfl) (by with_unfolding_all rfl)

/-- A payload whose single record has a zero entry for the second currency in
the `highest_ratio` map: the zero-ratio guard of `_process_markets` (line 171)
only checks `currency_a`, so `min_price = 0/1 = 0` and line 198 computes
`1 / min_price`. -/
def payZeroB : RawPayload :=
  ⟨[⟨some "L", some "a|b",
     [("a", 1), ("b", 1)], [("a", 1), ("b", 0)], []⟩]⟩

/-- **C2 (failing part).** Building the graph from `payZeroB` — a record whose
second currency has a zero entry in a ratio map — raises `ZeroDivisionError`
instead of skipping: the division guard does not cover the divisions of
line 198. -/
theorem process_markets_zero_division :
    process_markets "L" payZeroB = .error .zeroDivisionErr := by
  with_unfolding_all rfl

/-- A payload whose single record has a pair id with three tokens: it passes
the `'|' not in market_id` test, and the unpacking
`currency_a, currency_b = market_id.split('|')` raises `ValueError`. -/
def payThreeTok : RawPayload :=
  ⟨[⟨some "L", some "a|b|c", [], [], []⟩]⟩

/-- **C3 (failing part).** A malformed pair id with more than two tokens is not
skipped and counted: `_process_markets` raises `ValueError` on it. -/
theorem process_markets_three_token_raises :
    process_markets "L" payThreeTok = .error .valueErr := by
  with_unfolding_all rfl

/-- CPython's `bisect_left(a, x)` loop (`lo, hi = 0, len(a)`; narrow while
`lo < hi`).  The loop runs at most `hi - lo` times, so an explicit fuel of
`a.length` makes the recursion structural. -/
def bisectGo (a : List ℚ) (x : ℚ) : Nat → Nat → Nat → Nat
  | 0, lo, _ => lo
  | fuel + 1, lo, hi =>
    if lo < hi then
      let mid := (lo + hi) / 2
      if a.getD mid 0 < x then bisectGo a x fuel (mid + 1) hi
      else bisectGo a x fuel lo mid
    else lo

/-- `bisect.bisect_left(a, x)`. -/
def bisect_left (a : List ℚ) (x : ℚ) : Nat :=
  bisectGo a x a.length 0 a.length

/-- `MarketAnalyzer._get_volume_percentile` (`arbitrage.py` lines 59–73). -/
def get_volume_percentile (volume : ℚ) (volume_list : List ℚ) : ℚ :=
  if volume_list = [] ∨ volume ≤ 0 then 0
  else ((bisect_left volume_list volume : ℚ) / volume_list.length) * 100

theorem countP_eq_of_split (l : List ℚ) (p : ℚ → Bool) :
    ∀ (r : Nat), r ≤ l.length →
    (∀ i (hi : i < l.length), p (l.get ⟨i, hi⟩) = true ↔ i < r) →
    l.countP p = r := by
  induction l with
  | nil =>
    intro r hr _
    have hr0 : r = 0 := by simpa using hr
    subst hr0
    simp
  | cons y ys ih =>
    intro r hr h
    cases r with
    | zero =>
      have hy : ¬ p y = true := by
        intro hc
        exact absurd ((h 0 (by simp [List.length_cons])).mp hc) (by omega)
      rw [List.countP_cons_of_neg _ _ hy]
      apply ih 0 (by omega)
      intro i hi
      have := h (i + 1) (by simp [List.length_cons]; omega)
      simpa using this
    | succ s =>
      have hy : p y = true := (h 0 (by simp [List.length_cons])).mpr (by omega)
      rw [List.countP_cons_of_pos _ _ hy]
      have hys : ys.countP p = s := by
        apply ih s (by simp [List.length_cons] at hr; omega)
        intro i hi
        have := h (i + 1) (by simp [List.length_cons]; omega)
        simpa [Nat.succ_lt_succ_iff] using this
      omega

theorem bisectGo_spec (a : List ℚ) (x : ℚ) (hs : a.Sorted (· ≤ ·)) :
    ∀ (fuel lo hi : Nat), hi ≤ a.length → lo ≤ hi → hi - lo ≤ fuel →
    (∀ i (h : i < a.length), i < lo → a.get ⟨i, h⟩ < x) →
    (∀ i (h : i < a.length), hi ≤ i → ¬ a.get ⟨i, h⟩ < x) →
    bisectGo a x fuel lo hi = a.countP (fun y => decide (y < x)) := by
  intro fuel
  induction fuel with
  | zero =>
    intro lo hi h1 h2 h3 hlow hhigh
    have heq : lo = hi := by omega
    subst heq
    show lo = _
    refine (countP_eq_of_split a _ lo (by omega) ?_).symm
    intro i hi'
    constructor
    · intro hp
      by_contra hge
      exact hhigh i hi' (by omega) (by simpa using hp)
    · intro hlt
      simpa using hlow i hi' hlt
  | succ f ih =>
    intro lo hi h1 h2 h3 hlow hhigh
    show (if lo < hi then _ else lo) = _
    by_cases hlt : lo < hi
    · rw [if_pos hlt]
      have hmid1 : lo ≤ (lo + hi) / 2 := by
        rw [Nat.le_div_iff_mul_le (by norm_num)]
        omega
      have hmid2 : (lo + hi) / 2 < hi := by
        rw [Nat.div_lt_iff_lt_mul (by norm_num)]
        omega
      have hmidlen : (lo + hi) / 2 < a.length := lt_of_lt_of_le hmid2 h1
      show (if a.getD ((lo + hi) / 2) 0 < x then bisectGo a x f ((lo + hi) / 2 + 1) hi
            else bisectGo a x f lo ((lo + hi) / 2)) = _
      have hgetd : a.getD ((lo + hi) / 2) 0 = a.get ⟨(lo + hi) / 2, hmidlen⟩ := by
        simp [List.getD_eq_getElem?_getD, List.getElem?_eq_getElem hmidlen]
      rw [hgetd]
      by_cases hcmp : a.get ⟨(lo + hi) / 2, hmidlen⟩ < x
      · rw [if_pos hcmp]
        apply ih ((lo + hi) / 2 + 1) hi h1 (by omega) (by omega) ?_ hhigh
        intro i hi' hilt
        rcases Nat.lt_or_ge i ((lo + hi) / 2) with hc | hc
        · calc a.get ⟨i, hi'⟩ ≤ a.get ⟨(lo + hi) / 2, hmidlen⟩ :=
                hs.rel_get_of_le (by exact_mod_cast Nat.le_of_lt hc)
            _ < x := hcmp
        · have : i = (lo + hi) / 2 := by omega
          subst this
          exact hcmp
      · rw [if_neg hcmp]
        apply ih lo ((lo + hi) / 2) (le_of_lt hmidlen) (by omega) (by omega) hlow ?_
        intro i hi' hige hlt'
        have hle : a.get ⟨(lo + hi) / 2, hmidlen⟩ ≤ a.get ⟨i, hi'⟩ :=
          hs.rel_get_of_le (by exact_mod_cast hige)
        exact hcmp (lt_of_le_of_lt hle hlt')
    · rw [if_neg hlt]
      have heq : lo = hi := by omega
      subst heq
      refine (countP_eq_of_split a _ lo (by omega) ?_).symm
      intro i hi'
      constructor
      · intro hp
        by_contra hge
        exact hhigh i hi' (by omega) (by simpa using hp)
      · intro hltlo
        simpa using hlow i hi' hltlo

/-- **C6.** For every volume `v` and every sorted volume list `L`,
`_get_volume_percentile` returns `0` when `v ≤ 0` or `L` is empty, and
otherwise `100` times the number of entries of `L` strictly below `v`,
divided by the length of `L`. -/
theorem volume_percentile_spec (v : ℚ) (vl : List ℚ) (hs : vl.Sorted (· ≤ ·)) :
    get_volume_percentile v vl =
      if vl = [] ∨ v ≤ 0 then 0
      else 100 * ((vl.countP (fun y => decide (y < v)) : ℚ)) / vl.length := by
  unfold get_volume_percentile
  by_cases hc : vl = [] ∨ v ≤ 0
  · rw [if_pos hc, if_pos hc]
  · rw [if_neg hc, if_neg hc]
    unfold bisect_left
    rw [bisectGo_spec vl v hs vl.length 0 vl.length (le_refl _) (by omega) (by omega)
      (fun i h hlt => absurd hlt (by omega))
      (fun i h hge => absurd h (by omega))]
    ring

/-- Witness for C6 at `v = 2`, `L = [1, 2, 3]` (one entry strictly below 2,
so the percentile is 100/3). -/
theorem volume_percentile_spec_witness :
    ([1, 2, 3] : List ℚ).Sorted (· ≤ ·) ∧
      get_volume_percentile 2 [1, 2, 3] =
        (if ([1, 2, 3] : List ℚ) = [] ∨ (2 : ℚ) ≤ 0 then 0
         else 100 * ((([1, 2, 3] : List ℚ).countP (fun y => decide (y < 2)) : ℚ)) / 3) :=
  ⟨by decide, volume_percentile_spec 2 [1, 2, 3] (by decide)⟩

/-- The single-hour `MarketAnalyzer` state used by the analyses: the processed
graph, the base currency (`'exalted'` for realm poe2, `'chaos'` otherwise) and
the two sorted nonzero-volume lists of `_perform_initial_calculations`. -/
structure Analyzer where
  markets : Graph
  base_currency : String
  market_base_volumes : List ℚ
  market_divine_volumes : List ℚ
deriving Repr, DecidableEq

/-- One spread opportunity, the value content of the tuple appended at
`arbitrage.py` line 269 (the display-only `base_value_str` is omitted; the
pair is kept as its two currency components). -/
structure SpreadOpp where
  currency_a : String
  currency_b : String
  spread : ℚ
  min_price : ℚ
  max_price : ℚ
  percentile : ℚ
  base_volume : ℚ
  divine_volume : ℚ
deriving Repr, DecidableEq

/-- The flattened nested iteration
`for currency_a, trades in markets.items(): for currency_b, e in trades.items()`. -/
def gCells (g : Graph) : List (String × String × Edge) :=
  g.bind fun row => row.2.map fun cell => (row.1, cell.1, cell.2)

/-- The canonical unordered pair of a spread opportunity. -/
def pairOf (o : SpreadOpp) : String × String := sortPair o.currency_a o.currency_b

/-- The body of the spread loop after deduplication: the `min_price > 0`
guard, the spread computation, the threshold test, the optional zero-volume
filter and the percentile computation (`arbitrage.py` lines 235–269). -/
def spreadCell (A : Analyzer) (t : ℚ) (hz : Bool) (a b : String) (e : Edge) :
    Option SpreadOpp :=
  if 0 < e.min_price then
    let spread := e.max_price / e.min_price - 1
    if t < spread then
      let bv := (alGet e.volume A.base_currency).getD 0
      let dv := (alGet e.volume "divine").getD 0
      if hz = true ∧ bv = 0 ∧ dv = 0 then none
      else
        let bp := get_volume_percentile bv A.market_base_volumes
        let dp := get_volume_percentile dv A.market_divine_volumes
        some ⟨a, b, spread, e.min_price, e.max_price, max bp dp, bv, dv⟩
    else none
  else none

/-- The spread loop with its `processed_pairs` deduplication set. -/
def spreadLoop (A : Analyzer) (t : ℚ) (hz : Bool) :
    List (String × String × Edge) → List (String × String) → List SpreadOpp →
    List SpreadOpp
  | [], _, acc => acc
  | (a, b, e) :: rest, seen, acc =>
    if sortPair a b ∈ seen then spreadLoop A t hz rest seen acc
    else
      match spreadCell A t hz a b e with
      | none => spreadLoop A t hz rest (sortPair a b :: seen) acc
      | some o => spreadLoop A t hz rest (sortPair a b :: seen) (acc ++ [o])

/-- The `opportunities` list of `get_top_spread_opportunities` before sorting,
in insertion order. -/
def collectSpread (A : Analyzer) (t : ℚ) (hz : Bool) : List SpreadOpp :=
  spreadLoop A t hz (gCells A.markets) [] []

/-- Stable insertion step of a descending sort by `key`: the inserted element
goes after every earlier element of equal or larger key, exactly like
Python's stable `list.sort(key=..., reverse=True)`. -/
def insertByDesc {α : Type} (key : α → ℚ) (o : α) : List α → List α
  | [] => [o]
  | x :: xs => if key x ≤ key o then o :: x :: xs else x :: insertByDesc key o xs

/-- Stable descending sort by `key` (extensionally equal to Python's stable
sort with `reverse=True`: sorted, a permutation, and stable). -/
def sortByDesc {α : Type} (key : α → ℚ) : List α → List α
  | [] => []
  | x :: xs => insertByDesc key x (sortByDesc key xs)

/-- `get_top_spread_opportunities`: the ranked opportunity list the function
computes at `arbitrage.py` line 271 (display slices the first `top_n`). -/
def get_top_spread_opportunities (A : Analyzer) (t : ℚ) (hz : Bool) :
    List SpreadOpp :=
  sortByDesc (fun o => o.spread) (collectSpread A t hz)

theorem perm_insertByDesc {α : Type} (key : α → ℚ) (o : α) (l : List α) :
    List.Perm (insertByDesc key o l) (o :: l) := by
  induction l with
  | nil => exact List.Perm.refl _
  | cons x xs ih =>
    show List.Perm (if key x ≤ key o then o :: x :: xs else x :: insertByDesc key o xs) _
    by_cases h : key x ≤ key o
    · rw [if_pos h]
    · rw [if_neg h]
      exact (ih.cons x).trans (List.Perm.swap o x xs)

theorem perm_sortByDesc {α : Type} (key : α → ℚ) (l : List α) :
    List.Perm (sortByDesc key l) l := by
  induction l with
  | nil => exact List.Perm.refl _
  | cons x xs ih =>
    exact (perm_insertByDesc key x (sortByDesc key xs)).trans (ih.cons x)

theorem mem_sortByDesc {α : Type} (key : α → ℚ) (l : List α) (x : α) :
    x ∈ sortByDesc key l ↔ x ∈ l :=
  (perm_sortByDesc key l).mem_iff

theorem head_insertByDesc {α : Type} (key : α → ℚ) (o : α) (l : List α) (z : α)
    (h : (insertByDesc key o l).head? = some z) : z = o ∨ l.head? = some z := by
  cases l with
  | nil =>
    simp [insertByDesc] at h
    exact Or.inl h.symm
  | cons w ws =>
    by_cases hc : key w ≤ key o
    · left
      have : (insertByDesc key o (w :: ws)).head? = some o := by
        show (if key w ≤ key o then o :: w :: ws else _).head? = _
        rw [if_pos hc]
        rfl
      rw [this] at h
      injection h with h
      exact h.symm
    · right
      have : (insertByDesc key o (w :: ws)).head? = some w := by
        show (if key w ≤ key o then o :: w :: ws else w :: insertByDesc key o ws).head? = _
        rw [if_neg hc]
        rfl
      rw [this] at h
      injection h with h
      rw [← h]
      rfl

theorem chain_insertByDesc {α : Type} (key : α → ℚ) (o : α) (l : List α)
    (h : l.Chain' (fun u v => key v ≤ key u)) :
    (insertByDesc key o l).Chain' (fun u v => key v ≤ key u) := by
  induction l with
  | nil => simp [insertByDesc]
  | cons x xs ih =>
    show List.Chain' _ (if key x ≤ key o then o :: x :: xs else x :: insertByDesc key o xs)
    by_cases hc : key x ≤ key o
    · rw [if_pos hc]
      exact List.chain'_cons.mpr ⟨hc, h⟩
    · rw [if_neg hc]
      have hins := ih (List.Chain'.tail h)
      apply List.chain'_cons'.mpr
      refine ⟨?_, hins⟩
      intro z hz
      rcases head_insertByDesc key o xs z hz with hzo | hzx
      · subst hzo
        exact le_of_lt (lt_of_not_le hc)
      · exact (List.chain'_cons'.mp h).1 z hzx

theorem chain_sortByDesc {α : Type} (key : α → ℚ) (l : List α) :
    (sortByDesc key l).Chain' (fun u v => key v ≤ key u) := by
  induction l with
  | nil => simp [sortByDesc]
  | cons x xs ih => exact chain_insertByDesc key x (sortByDesc key xs) ih

theorem filter_insertByDesc {α : Type} (key : α → ℚ) (o : α) (l : List α) (q : ℚ) :
    (insertByDesc key o l).filter (fun y => decide (key y = q)) =
      if key o = q then o :: l.filter (fun y => decide (key y = q))
      else l.filter (fun y => decide (key y = q)) := by
  induction l with
  | nil =>
    by_cases hq : key o = q <;> simp [insertByDesc, List.filter, hq]
  | cons x xs ih =>
    show ((if key x ≤ key o then o :: x :: xs else x :: insertByDesc key o xs).filter _) = _
    by_cases hc : key x ≤ key o
    · rw [if_pos hc]
      by_cases hq : key o = q <;> simp [List.filter_cons, hq]
    · rw [if_neg hc]
      have hlt : key o < key x := lt_of_not_le hc
      by_cases hxq : key x = q
      · have hq : ¬ key o = q := fun hq => (ne_of_lt hlt) (hq.trans hxq.symm)
        simp [List.filter_cons, ih, hxq, hq]
      · by_cases hq : key o = q <;> simp [List.filter_cons, ih, hxq, hq]

theorem filter_sortByDesc {α : Type} (key : α → ℚ) (l : List α) (q : ℚ) :
    (sortByDesc key l).filter (fun y => decide (key y = q)) =
      l.filter (fun y => decide (key y = q)) := by
  induction l with
  | nil => rfl
  | cons x xs ih =>
    show (insertByDesc key x (sortByDesc key xs)).filter _ = _
    rw [filter_insertByDesc key x (sortByDesc key xs) q]
    by_cases hq : key x = q
    · rw [if_pos hq, ih, List.filter_cons]
      simp [hq]
    · rw [if_neg hq, ih, List.filter_cons]
      simp [hq]

/-- Keys of a dict are pairwise distinct (true of every real Python dict). -/
def NodupKeys {α : Type} (d : Dict α) : Prop := (d.map Prod.fst).Nodup

/-- Well-formedness of a graph as a dict of dicts. -/
def GraphWF (g : Graph) : Prop := NodupKeys g ∧ ∀ p ∈ g, NodupKeys p.2

theorem alGet_of_mem {α : Type} (d : Dict α) (hnd : NodupKeys d) (k : String) (v : α)
    (h : (k, v) ∈ d) : alGet d k = some v := by
  induction d with
  | nil => simp at h
  | cons p rest ih =>
    obtain ⟨pk, pv⟩ := p
    rcases List.mem_cons.mp h with heq | hmem
    · injection heq with h1 h2
      subst h1; subst h2
      simp [alGet]
    · have hk : pk ≠ k := by
        intro he
        subst he
        have hmap : pk ∈ rest.map Prod.fst := List.mem_map.mpr ⟨(pk, v), hmem, rfl⟩
        have hnd' : (pk :: rest.map Prod.fst).Nodup := by simpa [NodupKeys] using hnd
        exact (List.nodup_cons.mp hnd').1 hmap
      have hnd' : NodupKeys rest := by
        have : (pk :: rest.map Prod.fst).Nodup := by simpa [NodupKeys] using hnd
        exact (List.nodup_cons.mp this).2
      simp only [alGet, if_neg hk]
      exact ih hnd' hmem

theorem mem_of_alGet {α : Type} (d : Dict α) (k : String) (v : α)
    (h : alGet d k = some v) : (k, v) ∈ d := by
  induction d with
  | nil => simp [alGet] at h
  | cons p rest ih =>
    obtain ⟨pk, pv⟩ := p
    by_cases hk : pk = k
    · subst hk
      simp only [alGet, if_pos rfl] at h
      injection h with h
      subst h
      exact List.mem_cons_self _ _
    · simp only [alGet, if_neg hk] at h
      exact List.mem_cons_of_mem _ (ih h)

theorem gGet_of_cells (g : Graph) (hwf : GraphWF g) (a b : String) (e : Edge)
    (h : (a, b, e) ∈ gCells g) : gGet g a b = some e := by
  unfold gCells at h
  rcases List.mem_bind.mp h with ⟨row, hrow, hcell⟩
  rcases List.mem_map.mp hcell with ⟨cell, hc, heq⟩
  injection heq with h1 h2
  injection h2 with h2 h3
  unfold gGet
  have hrowget : alGet g a = some row.2 := by
    rw [← h1]
    exact alGet_of_mem g hwf.1 row.1 row.2 (by simpa using hrow)
  rw [hrowget]
  show alGet row.2 b = some e
  rw [← h2, ← h3]
  exact alGet_of_mem row.2 (hwf.2 row hrow) cell.1 cell.2 (by simpa using hc)

theorem cells_of_gGet (g : Graph) (a b : String) (e : Edge)
    (h : gGet g a b = some e) : (a, b, e) ∈ gCells g := by
  unfold gGet at h
  cases hrow : alGet g a with
  | none => rw [hrow] at h; simp at h
  | some row =>
    rw [hrow] at h
    have h1 : (a, row) ∈ g := mem_of_alGet g a row hrow
    have h2 : (b, e) ∈ row := mem_of_alGet row b e h
    unfold gCells
    exact List.mem_bind.mpr ⟨(a, row), h1, List.mem_map.mpr ⟨(b, e), h2, rfl⟩⟩

theorem spreadCell_shape (A : Analyzer) (t : ℚ) (hz : Bool) (a b : String) (e : Edge)
    (o : SpreadOpp) (h : spreadCell A t hz a b e = some o) :
    o.currency_a = a ∧ o.currency_b = b ∧ 0 < e.min_price ∧
    o.spread = e.max_price / e.min_price - 1 ∧ t < o.spread ∧
    o.min_price = e.min_price ∧ o.max_price = e.max_price ∧
    (hz = true → ¬ (o.base_volume = 0 ∧ o.divine_volume = 0)) := by
  unfold spreadCell at h
  split at h
  · rename_i hmin
    dsimp only at h
    split at h
    · rename_i hthr
      split at h
      · exact absurd h (by simp)
      · rename_i hnz
        injection h with ho
        subst ho
        exact ⟨rfl, rfl, hmin, rfl, hthr, rfl, rfl, fun hhz hzero => hnz ⟨hhz, hzero.1, hzero.2⟩⟩
    · exact absurd h (by simp)
  · exact absurd h (by simp)

theorem spreadLoop_mono (A : Analyzer) (t : ℚ) (hz : Bool) :
    ∀ (cs : List (String × String × Edge)) (seen : List (String × String))
      (acc : List SpreadOpp) (o : SpreadOpp),
      o ∈ acc → o ∈ spreadLoop A t hz cs seen acc := by
  intro cs
  induction cs with
  | nil => intro seen acc o h; exact h
  | cons c rest ih =>
    intro seen acc o h
    obtain ⟨a, b, e⟩ := c
    simp only [spreadLoop]
    split
    · exact ih seen acc o h
    · split
      · exact ih _ acc o h
      · exact ih _ _ o (List.mem_append.mpr (Or.inl h))

theorem spreadLoop_sound (A : Analyzer) (t : ℚ) (hz : Bool) :
    ∀ (cs : List (String × String × Edge)) (seen : List (String × String))
      (acc : List SpreadOpp) (o : SpreadOpp),
      o ∈ spreadLoop A t hz cs seen acc →
      o ∈ acc ∨ ∃ a b e, (a, b, e) ∈ cs ∧ spreadCell A t hz a b e = some o := by
  intro cs
  induction cs with
  | nil => intro seen acc o h; exact Or.inl h
  | cons c rest ih =>
    intro seen acc o h
    obtain ⟨a, b, e⟩ := c
    simp only [spreadLoop] at h
    split at h
    · rcases ih _ _ o h with h1 | ⟨a', b', e', hm, hc⟩
      · exact Or.inl h1
      · exact Or.inr ⟨a', b', e', List.mem_cons_of_mem _ hm, hc⟩
    · split at h
      · rcases ih _ _ o h with h1 | ⟨a', b', e', hm, hc⟩
        · exact Or.inl h1
        · exact Or.inr ⟨a', b', e', List.mem_cons_of_mem _ hm, hc⟩
      · rename_i o' hcell
        rcases ih _ _ o h with h1 | ⟨a', b', e', hm, hc⟩
        · rcases List.mem_append.mp h1 with h2 | h2
          · exact Or.inl h2
          · have : o = o' := by simpa using h2
            subst this
            exact Or.inr ⟨a, b, e, List.mem_cons_self _ _, hcell⟩
        · exact Or.inr ⟨a', b', e', List.mem_cons_of_mem _ hm, hc⟩

theorem spreadLoop_nodup (A : Analyzer) (t : ℚ) (hz : Bool) :
    ∀ (cs : List (String × String × Edge)) (seen : List (String × String))
      (acc : List SpreadOpp),
      (acc.map pairOf).Nodup → (∀ o ∈ acc, pairOf o ∈ seen) →
      ((spreadLoop A t hz cs seen acc).map pairOf).Nodup := by
  intro cs
  induction cs with
  | nil => intro seen acc h1 _; exact h1
  | cons c rest ih =>
    intro seen acc h1 h2
    obtain ⟨a, b, e⟩ := c
    simp only [spreadLoop]
    split
    · exact ih seen acc h1 h2
    · rename_i hnseen
      split
      · refine ih _ acc h1 ?_
        intro o ho
        exact List.mem_cons_of_mem _ (h2 o ho)
      · rename_i o' hcell
        have hpair : pairOf o' = sortPair a b := by
          obtain ⟨ha, hb, _⟩ := spreadCell_shape A t hz a b e o' hcell
          unfold pairOf
          rw [ha, hb]
        refine ih _ (acc ++ [o']) ?_ ?_
        · have hperm : List.Perm ((acc ++ [o']).map pairOf) (pairOf o' :: acc.map pairOf) := by
            rw [List.map_append]
            exact List.perm_append_singleton _ _
          rw [hperm.nodup_iff]
          refine List.nodup_cons.mpr ⟨?_, h1⟩
          intro hmem
          rcases List.mem_map.mp hmem with ⟨o, ho, hpo⟩
          exact hnseen (by rw [← hpair, ← hpo]; exact h2 o ho)
        · intro o ho
          rcases List.mem_append.mp ho with hin | hin
          · exact List.mem_cons_of_mem _ (h2 o hin)
          · have : o = o' := by simpa using hin
            subst this
            rw [hpair]
            exact List.mem_cons_self _ _

theorem spreadLoop_complete (A : Analyzer) (t : ℚ) (hz : Bool) :
    ∀ (cs : List (String × String × Edge)) (seen : List (String × String))
      (acc : List SpreadOpp) (p : String × String),
      (∃ c ∈ cs, sortPair c.1 c.2.1 = p) → p ∉ seen →
      (∀ c ∈ cs, sortPair c.1 c.2.1 = p → spreadCell A t hz c.1 c.2.1 c.2.2 ≠ none) →
      ∃ o ∈ spreadLoop A t hz cs seen acc, pairOf o = p := by
  intro cs
  induction cs with
  | nil =>
    intro seen acc p hex _ _
    rcases hex with ⟨c, hc, _⟩
    simp at hc
  | cons c rest ih =>
    intro seen acc p hex hp hpass
    obtain ⟨a, b, e⟩ := c
    simp only [spreadLoop]
    by_cases hpe : sortPair a b = p
    · rw [if_neg (fun hmem => hp (hpe ▸ hmem))]
      have hcell := hpass (a, b, e) (List.mem_cons_self _ _) hpe
      cases hc : spreadCell A t hz a b e with
      | none => exact absurd hc hcell
      | some o' =>
        show ∃ o ∈ spreadLoop A t hz rest (sortPair a b :: seen) (acc ++ [o']), pairOf o = p
        refine ⟨o', spreadLoop_mono A t hz rest _ _ o'
          (List.mem_append.mpr (Or.inr (List.mem_singleton.mpr rfl))), ?_⟩
        obtain ⟨ha, hb, _⟩ := spreadCell_shape A t hz a b e o' hc
        unfold pairOf
        rw [ha, hb]
        exact hpe
    · have hex' : ∃ c ∈ rest, sortPair c.1 c.2.1 = p := by
        rcases hex with ⟨c', hc', hcp⟩
        rcases List.mem_cons.mp hc' with heq | hmem
        · subst heq
          exact absurd hcp hpe
        · exact ⟨c', hmem, hcp⟩
      have hpass' : ∀ c ∈ rest, sortPair c.1 c.2.1 = p →
          spreadCell A t hz c.1 c.2.1 c.2.2 ≠ none := by
        intro c' hc' hcp
        exact hpass c' (List.mem_cons_of_mem _ hc') hcp
      split
      · exact ih seen acc p hex' hp hpass'
      · have hp' : p ∉ sortPair a b :: seen := by
          intro hmem
          rcases List.mem_cons.mp hmem with heq | hmem'
          · exact hpe heq.symm
          · exact hp hmem'
        split
        · exact ih _ acc p hex' hp' hpass'
        · exact ih _ _ p hex' hp' hpass'

/-- Ascending stable insertion (Python `list.sort()` on numbers). -/
def insertAsc (x : ℚ) : List ℚ → List ℚ
  | [] => [x]
  | y :: ys => if x ≤ y then x :: y :: ys else y :: insertAsc x ys

/-- Ascending sort of a numeric list. -/
def sortAsc : List ℚ → List ℚ
  | [] => []
  | y :: ys => insertAsc y (sortAsc ys)

/-- The volume-collecting loop of `_perform_initial_calculations`
(`arbitrage.py` lines 105–132): per unique unordered pair, the positive
base-currency and divine volumes, in iteration order. -/
def volumeLoop (base : String) :
    List (String × String × Edge) → List (String × String) → List ℚ × List ℚ →
    List ℚ × List ℚ
  | [], _, acc => acc
  | (a, b, e) :: rest, seen, acc =>
    if sortPair a b ∈ seen then volumeLoop base rest seen acc
    else
      let bv := (alGet e.volume base).getD 0
      let dv := (alGet e.volume "divine").getD 0
      let acc1 := if 0 < bv then (acc.1 ++ [bv], acc.2) else acc
      let acc2 := if 0 < dv then (acc1.1, acc1.2 ++ [dv]) else acc1
      volumeLoop base rest (sortPair a b :: seen) acc2

/-- `MarketAnalyzer.__init__`: build the graph, then the sorted nonzero
volume lists (the display-only statistics of `_calculate_currency_stats`
and the divine/base display ratio are omitted — no claim concerns them). -/
def mkAnalyzer (league base : String) (pd : RawPayload) : Except PyErr Analyzer :=
  match process_markets league pd with
  | .error err => .error err
  | .ok (g, _) =>
    let vols := volumeLoop base (gCells g) [] ([], [])
    .ok ⟨g, base, sortAsc vols.1, sortAsc vols.2⟩

/-- **C4.** The spread ranking: every produced entry comes from a stored edge
with `min_price > 0` and carries `spread = max_price/min_price - 1` above the
threshold (and, when `hide_zero_volume` is on, not both volumes zero); entries
are unique per unordered pair; the output is sorted non-increasing by spread;
ties keep insertion order (equal-spread sublists are preserved); and a pair
all of whose stored directions pass the filters appears in the output. -/
theorem spread_ranking_spec (A : Analyzer) (t : ℚ) (hz : Bool)
    (hwf : GraphWF A.markets) :
    (∀ o ∈ get_top_spread_opportunities A t hz, t < o.spread) ∧
    (get_top_spread_opportunities A t hz).Chain' (fun u v => v.spread ≤ u.spread) ∧
    (∀ q : ℚ, (get_top_spread_opportunities A t hz).filter
        (fun o => decide (o.spread = q)) =
      (collectSpread A t hz).filter (fun o => decide (o.spread = q))) ∧
    ((get_top_spread_opportunities A t hz).map pairOf).Nodup ∧
    (∀ o ∈ get_top_spread_opportunities A t hz,
      ∃ e, gGet A.markets o.currency_a o.currency_b = some e ∧
        0 < e.min_price ∧ o.spread = e.max_price / e.min_price - 1 ∧
        o.min_price = e.min_price ∧ o.max_price = e.max_price ∧
        (hz = true → ¬ (o.base_volume = 0 ∧ o.divine_volume = 0))) ∧
    (∀ a b e, gGet A.markets a b = some e →
      (∀ a' b' e', sortPair a' b' = sortPair a b → gGet A.markets a' b' = some e' →
        spreadCell A t hz a' b' e' ≠ none) →
      ∃ o ∈ get_top_spread_opportunities A t hz, pairOf o = sortPair a b) := by
  have hmemc : ∀ o, o ∈ get_top_spread_opportunities A t hz →
      ∃ a b e, (a, b, e) ∈ gCells A.markets ∧ spreadCell A t hz a b e = some o := by
    intro o ho
    rw [get_top_spread_opportunities, mem_sortByDesc] at ho
    rcases spreadLoop_sound A t hz (gCells A.markets) [] [] o ho with h1 | h2
    · simp at h1
    · exact h2
  refine ⟨?_, ?_, ?_, ?_, ?_, ?_⟩
  · intro o ho
    obtain ⟨a, b, e, _, hcell⟩ := hmemc o ho
    exact (spreadCell_shape A t hz a b e o hcell).2.2.2.2.1
  · exact chain_sortByDesc _ _
  · intro q
    exact filter_sortByDesc _ _ q
  · have hnd : ((collectSpread A t hz).map pairOf).Nodup :=
      spreadLoop_nodup A t hz (gCells A.markets) [] [] (by simp) (by simp)
    have hperm : List.Perm ((get_top_spread_opportunities A t hz).map pairOf)
        ((collectSpread A t hz).map pairOf) := by
      rw [get_top_spread_opportunities]
      exact (perm_sortByDesc (fun o => o.spread) (collectSpread A t hz)).map pairOf
    exact hperm.nodup_iff.mpr hnd
  · intro o ho
    obtain ⟨a, b, e, hmem, hcell⟩ := hmemc o ho
    obtain ⟨ha, hb, hmin, hsp, _, hmn, hmx, hvz⟩ := spreadCell_shape A t hz a b e o hcell
    refine ⟨e, ?_, hmin, hsp, hmn, hmx, hvz⟩
    rw [ha, hb]
    exact gGet_of_cells A.markets hwf a b e hmem
  · intro a b e hget hpass
    have hex : ∃ c ∈ gCells A.markets, sortPair c.1 c.2.1 = sortPair a b :=
      ⟨(a, b, e), cells_of_gGet A.markets a b e hget, rfl⟩
    have hpass' : ∀ c ∈ gCells A.markets, sortPair c.1 c.2.1 = sortPair a b →
        spreadCell A t hz c.1 c.2.1 c.2.2 ≠ none := by
      intro c hc hcp
      exact hpass c.1 c.2.1 c.2.2 hcp
        (gGet_of_cells A.markets hwf c.1 c.2.1 c.2.2 (by simpa using hc))
    obtain ⟨o, ho, hop⟩ :=
      spreadLoop_complete A t hz (gCells A.markets) [] [] (sortPair a b) hex
        (by simp) hpass'
    refine ⟨o, ?_, hop⟩
    rw [get_top_spread_opportunities, mem_sortByDesc]
    exact ho

/-- One triangular opportunity, the value content of the dict appended at
`arbitrage.py` line 389 (the display strings `path`, `steps`, `base_value`
are kept as their raw components: the three currencies and the three rates). -/
structure TriOpp where
  pathA : String
  pathB : String
  pathC : String
  inefficiency : ℚ
  rateAB : ℚ
  rateBC : ℚ
  rateCA : ℚ
  volume_percentile : ℚ
  base_volume : ℚ
  divine_volume : ℚ
deriving Repr, DecidableEq

/-- `itertools.permutations(currencies, 3)`: ordered triples of distinct
entries, in nested-loop order (graph keys are distinct). -/
def triples (l : List String) : List (String × String × String) :=
  l.bind fun a => l.bind fun b => l.bind fun c =>
    if a ≠ b ∧ a ≠ c ∧ b ≠ c then [(a, b, c)] else []

/-- The body of the triangular loop for one triple (`arbitrage.py` lines
318–397): only triples starting at the base currency; a missing edge (the
`KeyError` handler) skips the triple; chain the three `min_price`s from one
unit; keep strictly positive inefficiencies; optional per-leg zero-volume
filter; discard when the minimum leg percentile is below `min_percentile`. -/
def triCell (A : Analyzer) (hz : Bool) (minPct : ℚ) (trip : String × String × String) :
    Option TriOpp :=
  let a := trip.1
  let b := trip.2.1
  let c := trip.2.2
  if a ≠ A.base_currency then none
  else
    match gGet A.markets a b, gGet A.markets b c, gGet A.markets c a with
    | some eab, some ebc, some eca =>
      let final_amount := 1 * eab.min_price * ebc.min_price * eca.min_price
      let ineff := final_amount - 1
      if 0 < ineff then
        let bvab := (alGet eab.volume A.base_currency).getD 0
        let bvbc := (alGet ebc.volume A.base_currency).getD 0
        let bvca := (alGet eca.volume A.base_currency).getD 0
        let dvab := (alGet eab.volume "divine").getD 0
        let dvbc := (alGet ebc.volume "divine").getD 0
        let dvca := (alGet eca.volume "divine").getD 0
        let hasab := 0 < bvab ∨ 0 < dvab
        let hasbc := 0 < bvbc ∨ 0 < dvbc
        let hasca := 0 < bvca ∨ 0 < dvca
        if hz = true ∧ ¬ (hasab ∧ hasbc ∧ hasca) then none
        else
          let pab := max (get_volume_percentile bvab A.market_base_volumes)
                         (get_volume_percentile dvab A.market_divine_volumes)
          let pbc := max (get_volume_percentile bvbc A.market_base_volumes)
                         (get_volume_percentile dvbc A.market_divine_volumes)
          let pca := max (get_volume_percentile bvca A.market_base_volumes)
                         (get_volume_percentile dvca A.market_divine_volumes)
          let lowest := min (min pab pbc) pca
          if lowest < minPct then none
          else
            some ⟨a, b, c, ineff, eab.min_price, ebc.min_price, eca.min_price,
              lowest, max (max bvab bvbc) bvca, max (max dvab dvbc) dvca⟩
      else none
    | _, _, _ => none

/-- `get_top_triangular_inefficiencies`: the ranked list of triangular
opportunities computed at `arbitrage.py` line 404. -/
def get_top_triangular_inefficiencies (A : Analyzer) (hz : Bool) (minPct : ℚ) :
    List TriOpp :=
  sortByDesc (fun o => o.inefficiency)
    ((triples (A.markets.map Prod.fst)).filterMap (triCell A hz minPct))

theorem triCell_shape (A : Analyzer) (hz : Bool) (minPct : ℚ)
    (trip : String × String × String) (o : TriOpp)
    (h : triCell A hz minPct trip = some o) :
    o.pathA = A.base_currency ∧
    ∃ eab ebc eca,
      gGet A.markets o.pathA o.pathB = some eab ∧
      gGet A.markets o.pathB o.pathC = some ebc ∧
      gGet A.markets o.pathC o.pathA = some eca ∧
      o.inefficiency = eab.min_price * ebc.min_price * eca.min_price - 1 ∧
      0 < o.inefficiency ∧
      o.volume_percentile =
        min (min
          (max (get_volume_percentile ((alGet eab.volume A.base_currency).getD 0)
                  A.market_base_volumes)
               (get_volume_percentile ((alGet eab.volume "divine").getD 0)
                  A.market_divine_volumes))
          (max (get_volume_percentile ((alGet ebc.volume A.base_currency).getD 0)
                  A.market_base_volumes)
               (get_volume_percentile ((alGet ebc.volume "divine").getD 0)
                  A.market_divine_volumes)))
          (max (get_volume_percentile ((alGet eca.volume A.base_currency).getD 0)
                  A.market_base_volumes)
               (get_volume_percentile ((alGet eca.volume "divine").getD 0)
                  A.market_divine_volumes)) ∧
      minPct ≤ o.volume_percentile := by
  unfold triCell at h
  dsimp only at h
  split at h
  · exact absurd h (by simp)
  · rename_i hbase
    push_neg at hbase
    split at h
    · rename_i eab ebc eca heab hebc heca
      split at h
      · rename_i hineff
        split at h
        · exact absurd h (by simp)
        · split at h
          · exact absurd h (by simp)
          · rename_i hlow
            push_neg at hlow
            injection h with ho
            subst ho
            refine ⟨hbase, eab, ebc, eca, heab, hebc, heca, ?_, hineff, rfl, hlow⟩
            show 1 * eab.min_price * ebc.min_price * eca.min_price - 1 = _
            ring
      · exact absurd h (by simp)
    · exact absurd h (by simp)

/-- **C5 (amended).** Every triangular opportunity produced starts at the base
currency, uses three legs present in the graph, has inefficiency equal to the
product of the legs' `min_price`s minus 1 and strictly positive, and the
minimum of the three legs' liquidity percentiles is at least (`>=`, not
strictly above) the `min_percentile` threshold. -/
theorem triangular_spec (A : Analyzer) (hz : Bool) (minPct : ℚ) (o : TriOpp)
    (ho : o ∈ get_top_triangular_inefficiencies A hz minPct) :
    o.pathA = A.base_currency ∧
    ∃ eab ebc eca,
      gGet A.markets o.pathA o.pathB = some eab ∧
      gGet A.markets o.pathB o.pathC = some ebc ∧
      gGet A.markets o.pathC o.pathA = some eca ∧
      o.inefficiency = eab.min_price * ebc.min_price * eca.min_price - 1 ∧
      0 < o.inefficiency ∧
      minPct ≤ o.volume_percentile := by
  rw [get_top_triangular_inefficiencies, mem_sortByDesc] at ho
  rcases List.mem_filterMap.mp ho with ⟨trip, _, hcell⟩
  obtain ⟨h1, eab, ebc, eca, h2, h3, h4, h5, h6, _, h8⟩ :=
    triCell_shape A hz minPct trip o hcell
  exact ⟨h1, eab, ebc, eca, h2, h3, h4, h5, h6, h8⟩

/-- The analyzer `MarketAnalyzer(payGood, league="L")` builds (base currency
chaos, one market with base volume 5). -/
def analyzerGood : Analyzer := ⟨graphGood, "chaos", [5], []⟩

instance (g : Graph) : Decidable (GraphWF g) := by
  unfold GraphWF NodupKeys
  infer_instance

/-- Witness for C4 at the analyzer built from `payGood` with threshold 0 and
`hide_zero_volume=True`. -/
theorem spread_ranking_spec_witness :
    GraphWF analyzerGood.markets ∧
    (∀ o ∈ get_top_spread_opportunities analyzerGood 0 true, (0 : ℚ) < o.spread) ∧
    (get_top_spread_opportunities analyzerGood 0 true).Chain'
      (fun u v => v.spread ≤ u.spread) := by
  have h := spread_ranking_spec analyzerGood 0 true (by with_unfolding_all decide)
  exact ⟨by with_unfolding_all decide, h.1, h.2.1⟩

/-- A three-market payload forming the cycle chaos→x→y→chaos with min prices
2, 3, 1/5 (product 6/5), and no traded volume anywhere. -/
def payTri : RawPayload :=
  ⟨[⟨some "L", some "chaos|x", [("chaos", 1), ("x", 2)], [("chaos", 1), ("x", 2)], []⟩,
    ⟨some "L", some "x|y", [("x", 1), ("y", 3)], [("x", 1), ("y", 3)], []⟩,
    ⟨some "L", some "y|chaos", [("y", 5), ("chaos", 1)], [("y", 5), ("chaos", 1)], []⟩]⟩

/-- The graph built from `payTri`. -/
def graphTri : Graph :=
  [("chaos", [("x", ⟨2, 2, []⟩), ("y", ⟨5, 5, []⟩)]),
   ("x", [("chaos", ⟨1 / 2, 1 / 2, []⟩), ("y", ⟨3, 3, []⟩)]),
   ("y", [("x", ⟨1 / 3, 1 / 3, []⟩), ("chaos", ⟨1 / 5, 1 / 5, []⟩)])]

/-- The analyzer built from `payTri` (no nonzero volumes at all). -/
def analyzerTri : Analyzer := ⟨graphTri, "chaos", [], []⟩

/-- The single triangular opportunity `payTri` produces. -/
def triOppTri : TriOpp := ⟨"chaos", "x", "y", 1 / 5, 2, 3, 1 / 5, 0, 0, 0⟩

/-- **C5 (counterexample).** With `min_percentile = 0` and
`hide_zero_volume=False`, the produced opportunity has
`volume_percentile = 0`, which does not strictly exceed the threshold: the
filter at `arbitrage.py` line 374 keeps equality
(`lowest_leg_percentile < min_percentile` discards, so `>=` is kept). -/
theorem triangular_strict_percentile_cex :
    mkAnalyzer "L" "chaos" payTri = .ok analyzerTri ∧
    get_top_triangular_inefficiencies analyzerTri false 0 = [triOppTri] ∧
    ¬ (∀ o ∈ get_top_triangular_inefficiencies analyzerTri false 0,
      (0 : ℚ) < o.volume_percentile) := by
  refine ⟨by with_unfolding_all rfl, by with_unfolding_all rfl, ?_⟩
  intro hall
  have := hall triOppTri (by with_unfolding_all decide)
  simp [triOppTri] at this

/-- Witness for the amended C5 at the concrete opportunity of `payTri`. -/
theorem triangular_spec_witness :
    triOppTri.pathA = analyzerTri.base_currency :=
  (triangular_spec analyzerTri false 0 triOppTri (by with_unfolding_all decide)).1

/-- One per-hour spread record of `market_history[...]['spreads']`
(`trend_analyzer.py` lines 97–103). -/
structure SpreadRec where
  hour_index : Nat
  spread : ℚ
  min_price : ℚ
  max_price : ℚ
  volume : Dict ℚ
deriving Repr, DecidableEq

/-- One `market_history` entry: the three parallel per-hour sequences. -/
structure HistEntry where
  spreads : List SpreadRec
  base_volumes : List ℚ
  divine_volumes : List ℚ
deriving Repr, DecidableEq

/-- The `market_history` defaultdict. -/
abbrev HistDict := Dict HistEntry

/-- Append one hour's data to a (possibly fresh) history entry — the
defaultdict get-or-create followed by three appends. -/
def histAppend (hist : HistDict) (mid : String) (rec : SpreadRec) (bv dv : ℚ) :
    HistDict :=
  let e := (alGet hist mid).getD ⟨[], [], []⟩
  alSet hist mid ⟨e.spreads ++ [rec], e.base_volumes ++ [bv], e.divine_volumes ++ [dv]⟩

/-- The per-hour pair loop of `TrendAnalyzer._analyze_trends`
(`trend_analyzer.py` lines 83–109).  Note the guard is `max_price > 0`;
the division `max_price / min_price` is exact here because every graph the
builder returns stores nonzero `min_price` (building would have raised
otherwise, see `EdgeSym`). -/
def trendLoop (base : String) (hourIdx : Nat) :
    List (String × String × Edge) → List (String × String) → HistDict → HistDict
  | [], _, hist => hist
  | (a, b, e) :: rest, seen, hist =>
    if sortPair a b ∈ seen then trendLoop base hourIdx rest seen hist
    else
      let seen' := sortPair a b :: seen
      if 0 < e.max_price then
        let p := sortPair a b
        let mid := p.1 ++ "|" ++ p.2
        let spread := e.max_price / e.min_price - 1
        let bv := (alGet e.volume base).getD 0
        let dv := (alGet e.volume "divine").getD 0
        trendLoop base hourIdx rest seen'
          (histAppend hist mid ⟨hourIdx, spread, e.min_price, e.max_price, e.volume⟩ bv dv)
      else trendLoop base hourIdx rest seen'  hist

/-- `TrendAnalyzer._analyze_trends` over all hours. -/
def analyze_trends (base : String) (analyzers : List Analyzer) : HistDict :=
  (analyzers.enum).foldl
    (fun hist p => trendLoop base p.1 (gCells p.2.markets) [] hist) []

/-- `TrendAnalyzer.__init__`: one `MarketAnalyzer` per hourly payload, then
the folded history. -/
def mkAnalyzers (league base : String) (pds : List RawPayload) :
    Except PyErr (List Analyzer) :=
  pds.mapM (mkAnalyzer league base)

/-- `statistics.mean` (guarded nonempty by every caller). -/
def pyMean (l : List ℚ) : ℚ := l.sum / l.length

/-- `statistics.median`. -/
def pyMedian (l : List ℚ) : ℚ :=
  let s := sortAsc l
  let n := s.length
  if n % 2 = 1 then s.getD (n / 2) 0
  else (s.getD (n / 2 - 1) 0 + s.getD (n / 2) 0) / 2

/-- `TrendAnalyzer._calculate_divine_base_ratio`: the median of the hourly
divine↔base mid prices, or the per-base fallback constant. -/
def divineToBaseRate (base : String) (analyzers : List Analyzer) : ℚ :=
  let ratios := analyzers.filterMap fun A =>
    (gGet A.markets "divine" base).map fun e => (e.min_price + e.max_price) / 2
  if ratios = [] then (if base = "chaos" then 250 else 30) else pyMedian ratios

/-- `mean of the nonzero entries, 0 if none` — the
`statistics.mean(non_zero) if non_zero else 0` pattern. -/
def avgNonzero (l : List ℚ) : ℚ :=
  let nz := l.filter (fun v => decide (0 < v))
  if nz = [] then 0 else pyMean nz

/-- One persistent-market record (the ranking-relevant fields of the dict
built at `trend_analyzer.py` line 164; the display-only statistics —
median/max/min/stdev spread, totals and `latest_*` — are omitted, no claim
concerns them).  `persistence` is the source's `persistence_ratio`. -/
structure PersistRec where
  market_id : String
  persistence : ℚ
  hours_with_spread : Nat
  total_hours : Nat
  avg_spread : ℚ
  avg_base_volume : ℚ
  avg_divine_volume : ℚ
  hours_with_volume : Nat
  volume_consistency : ℚ
deriving Repr, DecidableEq

/-- The body of `get_persistent_spread_markets` for one pair
(`trend_analyzer.py` lines 127–185).  `hours_with_volume` is
`max(hours_with_base, hours_with_divine)`. -/
def persistEntry (minSpread persistThr minAvgVol rate : ℚ) (mid : String)
    (h : HistEntry) : Option PersistRec :=
  if h.spreads.length < 2 then none
  else
    let hws := (h.spreads.filter (fun d => decide (minSpread ≤ d.spread))).length
    let pr := (hws : ℚ) / h.spreads.length
    if persistThr ≤ pr then
      let avgB := avgNonzero h.base_volumes
      let avgD := avgNonzero h.divine_volumes
      if max avgB (avgD * rate) < minAvgVol then none
      else
        let hwb := (h.base_volumes.filter (fun v => decide (0 < v))).length
        let hwd := (h.divine_volumes.filter (fun v => decide (0 < v))).length
        let hwv := max hwb hwd
        let vc := if h.spreads ≠ [] then (hwv : ℚ) / h.spreads.length else 0
        some ⟨mid, pr, hws, h.spreads.length,
          pyMean (h.spreads.map (fun d => d.spread)), avgB, avgD, hwv, vc⟩
    else none

/-- The ranking key of `get_persistent_spread_markets` (line 190). -/
def persistKey (r : PersistRec) : ℚ :=
  r.persistence * r.avg_spread * (1 + r.volume_consistency)

/-- `get_persistent_spread_markets`: filter, rank descending by
`persistKey`, return the first `top_n`. -/
def get_persistent_spread_markets (hist : HistDict)
    (minSpread persistThr minAvgVol rate : ℚ) (topN : Nat) : List PersistRec :=
  (sortByDesc persistKey
    (hist.filterMap fun p => persistEntry minSpread persistThr minAvgVol rate p.1 p.2)).take
    topN

/-- Modelled from the spec's words (for comparison with the code's
`volume_consistency`): the number of recorded hours in which either of the
pair's two tracked volumes was nonzero, divided by the number of recorded
hours. -/
def specVolumeConsistency (h : HistEntry) : ℚ :=
  (((h.base_volumes.zip h.divine_volumes).filter
      (fun p => decide (0 < p.1 ∨ 0 < p.2))).length : ℚ) / h.spreads.length

theorem persistEntry_shape (minSpread persistThr minAvgVol rate : ℚ) (mid : String)
    (he : HistEntry) (r : PersistRec)
    (h : persistEntry minSpread persistThr minAvgVol rate mid he = some r) :
    r.market_id = mid ∧ 2 ≤ he.spreads.length ∧
    r.persistence =
      ((he.spreads.filter (fun d => decide (minSpread ≤ d.spread))).length : ℚ) /
        he.spreads.length ∧
    r.avg_spread = pyMean (he.spreads.map (fun d => d.spread)) ∧
    r.volume_consistency =
      ((max (he.base_volumes.filter (fun v => decide (0 < v))).length
            (he.divine_volumes.filter (fun v => decide (0 < v))).length : Nat) : ℚ) /
        he.spreads.length := by
  unfold persistEntry at h
  split at h
  · exact absurd h (by simp)
  · rename_i hlen
    push_neg at hlen
    dsimp only at h
    split at h
    · split at h
      · exact absurd h (by simp)
      · injection h with hr
        subst hr
        refine ⟨rfl, hlen, rfl, rfl, ?_⟩
        have hne : he.spreads ≠ [] := by
          intro h0
          rw [h0] at hlen
          simp at hlen
        show (if he.spreads ≠ [] then _ else 0) = _
        rw [if_pos hne]
    · exact absurd h (by simp)

/-- **C8 (amended).** The persistence output is ranked non-increasing by
`persistence_ratio * avg_spread * (1 + volume_consistency)`, where
`volume_consistency` is the **maximum** of the per-currency nonzero-volume
hour counts (not the count of hours where either was nonzero), divided by the
number of recorded hours. -/
theorem persistence_ranking_spec (hist : HistDict)
    (minSpread persistThr minAvgVol rate : ℚ) (topN : Nat) :
    (get_persistent_spread_markets hist minSpread persistThr minAvgVol rate topN).Chain'
      (fun u v => persistKey v ≤ persistKey u) ∧
    (∀ r ∈ get_persistent_spread_markets hist minSpread persistThr minAvgVol rate topN,
      ∃ he : HistEntry, (r.market_id, he) ∈ hist ∧ 2 ≤ he.spreads.length ∧
        r.persistence =
          ((he.spreads.filter (fun d => decide (minSpread ≤ d.spread))).length : ℚ) /
            he.spreads.length ∧
        r.avg_spread = pyMean (he.spreads.map (fun d => d.spread)) ∧
        r.volume_consistency =
          ((max (he.base_volumes.filter (fun v => decide (0 < v))).length
                (he.divine_volumes.filter (fun v => decide (0 < v))).length : Nat) : ℚ) /
            he.spreads.length) := by
  constructor
  · simp only [get_persistent_spread_markets]
    exact List.Chain'.take (chain_sortByDesc _ _) topN
  · intro r hr
    simp only [get_persistent_spread_markets] at hr
    have hr' := List.mem_of_mem_take hr
    rw [mem_sortByDesc] at hr'
    rcases List.mem_filterMap.mp hr' with ⟨⟨mid, he⟩, hmem, hcell⟩
    obtain ⟨h1, h2, h3, h4, h5⟩ :=
      persistEntry_shape minSpread persistThr minAvgVol rate mid he r hcell
    refine ⟨he, ?_, h2, h3, h4, h5⟩
    rw [h1]
    exact hmem

/-- Hour 1 for the pair chaos|gem: spread 1/2, base volume 5, no divine. -/
def payHist1 : RawPayload :=
  ⟨[⟨some "L", some "chaos|gem",
     [("chaos", 1), ("gem", 3)], [("chaos", 1), ("gem", 2)], [("chaos", 5)]⟩]⟩

/-- Hour 2 for the pair chaos|gem: spread 1/2, no base volume, divine 7. -/
def payHist2 : RawPayload :=
  ⟨[⟨some "L", some "chaos|gem",
     [("chaos", 1), ("gem", 3)], [("chaos", 1), ("gem", 2)], [("divine", 7)]⟩]⟩

/-- The history entry the two hours fold into. -/
def entryC8 : HistEntry :=
  ⟨[⟨0, 1 / 2, 2, 3, [("chaos", 5)]⟩, ⟨1, 1 / 2, 2, 3, [("divine", 7)]⟩],
   [5, 0], [0, 7]⟩

/-- The folded history table. -/
def histC8 : HistDict := [("chaos|gem", entryC8)]

/-- The persistent-market record produced from `histC8`. -/
def persistRecC8 : PersistRec := ⟨"chaos|gem", 1, 2, 2, 1 / 2, 5, 7, 1, 1 / 2⟩

/-- **C8 (counterexample).** Base volume is nonzero only in hour 1 and divine
volume only in hour 2, so every recorded hour has nonzero volume in one of
the two currencies (the claim's `volume_consistency` would be 1), yet the
code's record carries `volume_consistency = max(1, 1)/2 = 1/2`, and the
ranking key actually used differs from the claim's formula. -/
theorem persistence_consistency_cex :
    (mkAnalyzers "L" "chaos" [payHist1, payHist2]).map (analyze_trends "chaos") =
      .ok histC8 ∧
    get_persistent_spread_markets histC8 0 (1 / 2) 0 250 10 = [persistRecC8] ∧
    persistRecC8.volume_consistency = 1 / 2 ∧
    specVolumeConsistency entryC8 = 1 ∧
    persistKey persistRecC8 ≠
      persistRecC8.persistence * persistRecC8.avg_spread *
        (1 + specVolumeConsistency entryC8) := by
  refine ⟨by with_unfolding_all rfl, by with_unfolding_all rfl,
    by with_unfolding_all rfl, by with_unfolding_all rfl,
    by with_unfolding_all decide⟩

/-- Witness for the amended C8 at `histC8`. -/
theorem persistence_ranking_spec_witness :
    ∃ he : HistEntry, (persistRecC8.market_id, he) ∈ histC8 ∧ 2 ≤ he.spreads.length ∧
      persistRecC8.persistence =
        ((he.spreads.filter (fun d => decide ((0 : ℚ) ≤ d.spread))).length : ℚ) /
          he.spreads.length ∧
      persistRecC8.avg_spread = pyMean (he.spreads.map (fun d => d.spread)) ∧
      persistRecC8.volume_consistency =
        ((max (he.base_volumes.filter (fun v => decide (0 < v))).length
              (he.divine_volumes.filter (fun v => decide (0 < v))).length : Nat) : ℚ) /
          he.spreads.length :=
  (persistence_ranking_spec histC8 0 (1 / 2) 0 250 10).2 persistRecC8
    (by with_unfolding_all decide)

/-- Python `l[-k:]` for a nonnegative `k` (note `l[-0:]` is the whole list). -/
def recentSlice {α : Type} (l : List α) (k : Nat) : List α :=
  if k = 0 then l else l.drop (l.length - k)

/-- `numerator = sum((x - mean_x) * (y - mean_y) for x, y in zip(xs, ys))`. -/
def olsNum (xs ys : List ℚ) (mx my : ℚ) : ℚ :=
  ((xs.zip ys).map (fun p => (p.1 - mx) * (p.2 - my))).sum

/-- `denominator = sum((x - mean_x) ** 2 for x in xs)`. -/
def olsDen (xs : List ℚ) (mx : ℚ) : ℚ :=
  (xs.map (fun x => (x - mx) ^ 2)).sum

/-- The x-axis `list(range(len(ys)))` of the OLS fit. -/
def olsXs (ys : List ℚ) : List ℚ := (List.range ys.length).map (fun (i : Nat) => (i : ℚ))

/-- The OLS denominator of `get_trending_markets` for the spread series. -/
def slopeDen (ys : List ℚ) : ℚ := olsDen (olsXs ys) (pyMean (olsXs ys))

/-- The OLS slope of `get_trending_markets` for the spread series
(`trend_analyzer.py` lines 239–249). -/
def slopeOf (ys : List ℚ) : ℚ :=
  olsNum (olsXs ys) ys (pyMean (olsXs ys)) (pyMean ys) / slopeDen ys

/-- One trending-market record (`trend_analyzer.py` line 254). -/
structure TrendRec where
  market_id : String
  trend_slope : ℚ
  latest_spread : ℚ
  avg_recent_spread : ℚ
  spread_change : ℚ
  hours_analyzed : Nat
  avg_base_volume : ℚ
  avg_divine_volume : ℚ
  latest_base_volume : ℚ
  latest_divine_volume : ℚ
deriving Repr, DecidableEq

/-- The body of `get_trending_markets` for one pair (`trend_analyzer.py`
lines 211–265): require `lookback_hours` recorded points, slice the most
recent `lookback_hours` values, apply the volume filter, skip on zero OLS
denominator or non-positive slope. -/
def trendEntry (rate : ℚ) (lookback : Nat) (minAvgVol : ℚ) (mid : String)
    (h : HistEntry) : Option TrendRec :=
  if h.spreads.length < lookback then none
  else
    let recent := (recentSlice h.spreads lookback).map (fun d => d.spread)
    let rbv := recentSlice h.base_volumes lookback
    let rdv := recentSlice h.divine_volumes lookback
    if recent.length < 2 then none
    else
      let avgB := avgNonzero rbv
      let avgD := avgNonzero rdv
      if max avgB (avgD * rate) < minAvgVol then none
      else
        if slopeDen recent = 0 then none
        else
          let slope := slopeOf recent
          if 0 < slope then
            some ⟨mid, slope,
              ((h.spreads.getLast?).map (fun d => d.spread)).getD 0,
              pyMean recent,
              recent.getLast?.getD 0 - recent.head?.getD 0,
              recent.length, avgB, avgD,
              rbv.getLast?.getD 0, rdv.getLast?.getD 0⟩
          else none

/-- The ranked trending list (`trending_markets` after the sort at
`trend_analyzer.py` line 267). -/
def trendRanked (hist : HistDict) (rate : ℚ) (lookback : Nat) (minAvgVol : ℚ) :
    List TrendRec :=
  sortByDesc (fun r => r.trend_slope)
    (hist.filterMap fun p => trendEntry rate lookback minAvgVol p.1 p.2)

/-- `get_trending_markets`: the ranked list truncated to `top_n`. -/
def get_trending_markets (hist : HistDict) (rate : ℚ) (lookback : Nat)
    (minAvgVol : ℚ) (topN : Nat) : List TrendRec :=
  (trendRanked hist rate lookback minAvgVol).take topN

theorem sum_map_affine (l : List ℚ) (a d : ℚ) :
    (l.map (fun x => a + d * x)).sum = l.length * a + d * l.sum := by
  induction l with
  | nil => simp
  | cons x xs ih =>
    simp only [List.map_cons, List.sum_cons, List.length_cons, ih]
    push_cast
    ring

theorem sum_const_list (l : List ℚ) (c : ℚ) (h : ∀ y ∈ l, y = c) :
    l.sum = l.length * c := by
  induction l with
  | nil => simp
  | cons x xs ih =>
    have hx : x = c := h x (List.mem_cons_self _ _)
    have ih' := ih (fun y hy => h y (List.mem_cons_of_mem _ hy))
    simp only [List.sum_cons, List.length_cons, hx, ih']
    push_cast
    ring

theorem pyMean_const (l : List ℚ) (c : ℚ) (hne : l ≠ [])
    (h : ∀ y ∈ l, y = c) : pyMean l = c := by
  unfold pyMean
  rw [sum_const_list l c h]
  have h0 : (l.length : ℚ) ≠ 0 := by
    simp only [ne_eq, Nat.cast_eq_zero, List.length_eq_zero]
    exact hne
  field_simp

theorem pyMean_affine (xs : List ℚ) (a d : ℚ) (hne : xs ≠ []) :
    pyMean (xs.map fun x => a + d * x) = a + d * pyMean xs := by
  unfold pyMean
  rw [List.length_map, sum_map_affine]
  have h0 : (xs.length : ℚ) ≠ 0 := by
    simp only [ne_eq, Nat.cast_eq_zero, List.length_eq_zero]
    exact hne
  field_simp
  ring

theorem olsNum_affine (xs : List ℚ) (a d mx : ℚ) :
    olsNum xs (xs.map fun x => a + d * x) mx (a + d * mx) = d * olsDen xs mx := by
  induction xs with
  | nil => simp [olsNum, olsDen]
  | cons x xs ih =>
    simp only [olsNum, olsDen, List.map_cons, List.zip_cons_cons, List.sum_cons] at *
    rw [ih]
    ring

theorem olsNum_const (xs ys : List ℚ) (mx c : ℚ) (h : ∀ y ∈ ys, y = c) :
    olsNum xs ys mx c = 0 := by
  induction xs generalizing ys with
  | nil => simp [olsNum]
  | cons x xs ih =>
    cases ys with
    | nil => simp [olsNum]
    | cons y ys =>
      have hy : y = c := h y (List.mem_cons_self _ _)
      have ih' := ih ys (fun z hz => h z (List.mem_cons_of_mem _ hz))
      simp only [olsNum, List.zip_cons_cons, List.map_cons, List.sum_cons] at *
      rw [ih', hy]
      ring

theorem olsDen_cons (x : ℚ) (l : List ℚ) (mx : ℚ) :
    olsDen (x :: l) mx = (x - mx) ^ 2 + olsDen l mx := by
  simp [olsDen]

theorem range_map_cast_two (k : Nat) :
    (List.range (k + 2)).map (fun (i : Nat) => (i : ℚ)) =
      0 :: 1 :: ((List.range k).map (fun (i : Nat) => (i : ℚ) + 2)) := by
  rw [List.range_succ_eq_map (k + 1), List.range_succ_eq_map k]
  simp only [List.map_cons, List.map_map, List.cons.injEq]
  refine ⟨by norm_num, by norm_num, ?_⟩
  apply List.map_congr_left
  intro i _
  simp only [Function.comp_apply]
  push_cast
  ring

theorem olsDen_range_pos (n : Nat) (hn : 2 ≤ n) (mx : ℚ) :
    0 < olsDen ((List.range n).map (fun (i : Nat) => (i : ℚ))) mx := by
  obtain ⟨k, rfl⟩ : ∃ k, n = k + 2 := ⟨n - 2, by omega⟩
  rw [range_map_cast_two, olsDen_cons, olsDen_cons]
  have hrest : 0 ≤ olsDen ((List.range k).map (fun (i : Nat) => (i : ℚ) + 2)) mx := by
    apply List.sum_nonneg
    intro y hy
    rcases List.mem_map.mp hy with ⟨x, _, rfl⟩
    positivity
  nlinarith [sq_nonneg (mx - 1 / 2), hrest]

theorem slope_arith (n : Nat) (hn : 2 ≤ n) (a d : ℚ) :
    slopeDen ((List.range n).map (fun (i : Nat) => a + d * i)) ≠ 0 ∧
    slopeOf ((List.range n).map (fun (i : Nat) => a + d * i)) = d := by
  have hlen : ((List.range n).map (fun (i : Nat) => a + d * (i : ℚ))).length = n := by
    simp
  have hxs : olsXs ((List.range n).map (fun (i : Nat) => a + d * i)) =
      (List.range n).map (fun (i : Nat) => (i : ℚ)) := by
    rw [olsXs, hlen]
  have hxs_ne : (List.range n).map (fun (i : Nat) => (i : ℚ)) ≠ [] := by
    intro h0
    have : ((List.range n).map (fun (i : Nat) => (i : ℚ))).length = n := by simp
    rw [h0] at this
    simp at this
    omega
  have hys_eq : (List.range n).map (fun (i : Nat) => a + d * (i : ℚ)) =
      ((List.range n).map (fun (i : Nat) => (i : ℚ))).map (fun x => a + d * x) := by
    rw [List.map_map]
    rfl
  have hpos := olsDen_range_pos n hn
    (pyMean ((List.range n).map (fun (i : Nat) => (i : ℚ))))
  constructor
  · rw [slopeDen, hxs]
    exact ne_of_gt hpos
  · rw [slopeOf, slopeDen, hxs]
    have hmy : pyMean ((List.range n).map (fun (i : Nat) => a + d * (i : ℚ))) =
        a + d * pyMean ((List.range n).map (fun (i : Nat) => (i : ℚ))) := by
      rw [hys_eq]
      exact pyMean_affine _ a d hxs_ne
    rw [hmy]
    conv_lhs => rw [hys_eq]
    rw [olsNum_affine]
    exact mul_div_cancel_right₀ d (ne_of_gt hpos)

theorem slope_const (ys : List ℚ) (c : ℚ) (hc : ∀ y ∈ ys, y = c) (hne : ys ≠ []) :
    slopeOf ys = 0 := by
  rw [slopeOf, pyMean_const ys c hne hc, olsNum_const _ _ _ _ hc, zero_div]

theorem trendEntry_shape (rate : ℚ) (lookback : Nat) (minAvgVol : ℚ) (mid : String)
    (h : HistEntry) (r : TrendRec)
    (heq : trendEntry rate lookback minAvgVol mid h = some r) :
    r.market_id = mid ∧ lookback ≤ h.spreads.length ∧
    2 ≤ ((recentSlice h.spreads lookback).map (fun d => d.spread)).length ∧
    slopeDen ((recentSlice h.spreads lookback).map (fun d => d.spread)) ≠ 0 ∧
    r.trend_slope = slopeOf ((recentSlice h.spreads lookback).map (fun d => d.spread)) ∧
    0 < r.trend_slope := by
  unfold trendEntry at heq
  split at heq
  · exact absurd heq (by simp)
  · rename_i h1
    push_neg at h1
    dsimp only at heq
    split at heq
    · exact absurd heq (by simp)
    · rename_i h2
      push_neg at h2
      split at heq
      · exact absurd heq (by simp)
      · split at heq
        · exact absurd heq (by simp)
        · rename_i h4
          split at heq
          · rename_i h5
            injection heq with hr
            subst hr
            exact ⟨rfl, h1, h2, h4, rfl, h5⟩
          · exact absurd heq (by simp)

theorem trendEntry_arith (rate : ℚ) (lookback : Nat) (minAvgVol : ℚ) (mid : String)
    (h : HistEntry) (a d : ℚ)
    (hlb : lookback ≤ h.spreads.length)
    (hn2 : 2 ≤ ((recentSlice h.spreads lookback).map (fun d' => d'.spread)).length)
    (hrec : (recentSlice h.spreads lookback).map (fun d' => d'.spread) =
      (List.range (((recentSlice h.spreads lookback).map (fun d' => d'.spread)).length)).map
        (fun (i : Nat) => a + d * i))
    (hd : 0 < d)
    (hvol : ¬ (max (avgNonzero (recentSlice h.base_volumes lookback))
        (avgNonzero (recentSlice h.divine_volumes lookback) * rate) < minAvgVol)) :
    ∃ r : TrendRec, trendEntry rate lookback minAvgVol mid h = some r ∧
      r.market_id = mid ∧ r.trend_slope = d := by
  obtain ⟨hden, hslope⟩ :=
    slope_arith (((recentSlice h.spreads lookback).map (fun d' => d'.spread)).length) hn2 a d
  unfold trendEntry
  rw [if_neg (by omega)]
  dsimp only
  rw [hrec]
  rw [if_neg (by
    simp only [List.length_map, List.length_range]
    have hn2' : 2 ≤ (recentSlice h.spreads lookback).length := by simpa using hn2
    omega)]
  rw [if_neg hvol]
  rw [if_neg hden]
  rw [if_pos (by rw [hslope]; exact hd)]
  exact ⟨_, rfl, rfl, hslope⟩

theorem trendEntry_const (rate : ℚ) (lookback : Nat) (minAvgVol : ℚ) (mid : String)
    (h : HistEntry) (c : ℚ)
    (hconst : ∀ y ∈ (recentSlice h.spreads lookback).map (fun d' => d'.spread), y = c) :
    trendEntry rate lookback minAvgVol mid h = none := by
  unfold trendEntry
  split
  · rfl
  · dsimp only
    split
    · rfl
    · rename_i h2
      push_neg at h2
      split
      · rfl
      · split
        · rfl
        · have hne : (recentSlice h.spreads lookback).map (fun d' => d'.spread) ≠ [] := by
            intro h0
            rw [h0] at h2
            simp at h2
          have hz : slopeOf ((recentSlice h.spreads lookback).map (fun d' => d'.spread)) = 0 :=
            slope_const _ c hconst hne
          rw [if_neg (by rw [hz]; exact lt_irrefl 0)]

/-- **C9.** The trending analysis considers only pairs with at least
`lookback_hours` recorded points; every reported record carries the OLS slope
of the most recent `lookback_hours` spread values over `x = 0..n-1` with a
nonzero denominator and a strictly positive slope; an entry whose recent
spreads form a strictly increasing arithmetic sequence is reported with slope
`d` when the volume filter passes; and an entry with constant recent spreads
contributes nothing. -/
theorem trending_spec (hist : HistDict) (rate : ℚ) (lookback : Nat)
    (minAvgVol : ℚ) :
    (∀ r ∈ trendRanked hist rate lookback minAvgVol,
      ∃ he : HistEntry, (r.market_id, he) ∈ hist ∧ lookback ≤ he.spreads.length ∧
        2 ≤ ((recentSlice he.spreads lookback).map (fun d => d.spread)).length ∧
        slopeDen ((recentSlice he.spreads lookback).map (fun d => d.spread)) ≠ 0 ∧
        r.trend_slope = slopeOf ((recentSlice he.spreads lookback).map (fun d => d.spread)) ∧
        0 < r.trend_slope) ∧
    (∀ (mid : String) (he : HistEntry) (a d : ℚ), (mid, he) ∈ hist →
      lookback ≤ he.spreads.length →
      2 ≤ ((recentSlice he.spreads lookback).map (fun d' => d'.spread)).length →
      (recentSlice he.spreads lookback).map (fun d' => d'.spread) =
        (List.range (((recentSlice he.spreads lookback).map (fun d' => d'.spread)).length)).map
          (fun (i : Nat) => a + d * i) →
      0 < d →
      ¬ (max (avgNonzero (recentSlice he.base_volumes lookback))
          (avgNonzero (recentSlice he.divine_volumes lookback) * rate) < minAvgVol) →
      ∃ r ∈ trendRanked hist rate lookback minAvgVol,
        r.market_id = mid ∧ r.trend_slope = d) ∧
    (∀ (mid : String) (he : HistEntry) (c : ℚ),
      (∀ y ∈ (recentSlice he.spreads lookback).map (fun d' => d'.spread), y = c) →
      trendEntry rate lookback minAvgVol mid he = none) := by
  refine ⟨?_, ?_, ?_⟩
  · intro r hr
    rw [trendRanked, mem_sortByDesc] at hr
    rcases List.mem_filterMap.mp hr with ⟨⟨mid, he⟩, hmem, hcell⟩
    obtain ⟨h1, h2, h3, h4, h5, h6⟩ :=
      trendEntry_shape rate lookback minAvgVol mid he r hcell
    refine ⟨he, ?_, h2, h3, h4, h5, h6⟩
    rw [h1]
    exact hmem
  · intro mid he a d hmem hlb hn2 hrec hd hvol
    obtain ⟨r, heq, hmid, hslope⟩ :=
      trendEntry_arith rate lookback minAvgVol mid he a d hlb hn2 hrec hd hvol
    refine ⟨r, ?_, hmid, hslope⟩
    rw [trendRanked, mem_sortByDesc]
    exact List.mem_filterMap.mpr ⟨(mid, he), hmem, heq⟩
  · intro mid he c hconst
    exact trendEntry_const rate lookback minAvgVol mid he c hconst

/-- Trend hours 1 and 2: pair chaos|gem has spreads 1/2 then 1 (strictly
increasing arithmetic), pair chaos|ore has constant spread 1/2; both traded
5 chaos each hour. -/
def payT1 : RawPayload :=
  ⟨[⟨some "L", some "chaos|gem",
     [("chaos", 1), ("gem", 3)], [("chaos", 1), ("gem", 2)], [("chaos", 5)]⟩,
    ⟨some "L", some "chaos|ore",
     [("chaos", 1), ("ore", 3)], [("chaos", 1), ("ore", 2)], [("chaos", 5)]⟩]⟩

/-- Second trend hour, see `payT1`. -/
def payT2 : RawPayload :=
  ⟨[⟨some "L", some "chaos|gem",
     [("chaos", 1), ("gem", 4)], [("chaos", 1), ("gem", 2)], [("chaos", 5)]⟩,
    ⟨some "L", some "chaos|ore",
     [("chaos", 1), ("ore", 3)], [("chaos", 1), ("ore", 2)], [("chaos", 5)]⟩]⟩

/-- The chaos|gem history entry of the two trend hours. -/
def entryC9gem : HistEntry :=
  ⟨[⟨0, 1 / 2, 2, 3, [("chaos", 5)]⟩, ⟨1, 1, 2, 4, [("chaos", 5)]⟩], [5, 5], [0, 0]⟩

/-- The chaos|ore history entry of the two trend hours (constant spreads). -/
def entryC9ore : HistEntry :=
  ⟨[⟨0, 1 / 2, 2, 3, [("chaos", 5)]⟩, ⟨1, 1 / 2, 2, 3, [("chaos", 5)]⟩], [5, 5], [0, 0]⟩

/-- The folded two-pair history. -/
def histC9 : HistDict := [("chaos|gem", entryC9gem), ("chaos|ore", entryC9ore)]

/-- Witness for C9 at `histC9` with lookback 2: the arithmetic chaos|gem pair
is reported with slope 1/2, and the constant chaos|ore pair contributes
nothing. -/
theorem trending_spec_witness :
    (mkAnalyzers "L" "chaos" [payT1, payT2]).map (analyze_trends "chaos") =
      .ok histC9 ∧
    (∃ r ∈ trendRanked histC9 250 2 0,
      r.market_id = "chaos|gem" ∧ r.trend_slope = 1 / 2) ∧
    trendEntry 250 2 0 "chaos|ore" entryC9ore = none := by
  have h := trending_spec histC9 250 2 0
  refine ⟨by with_unfolding_all rfl, ?_, ?_⟩
  · exact h.2.1 "chaos|gem" entryC9gem (1 / 2) (1 / 2)
      (by with_unfolding_all decide) (by with_unfolding_all decide)
      (by with_unfolding_all decide) (by with_unfolding_all decide)
      (by with_unfolding_all decide) (by with_unfolding_all decide)
  · exact h.2.2 "chaos|ore" entryC9ore (1 / 2) (by with_unfolding_all decide)

/-- The value `get_top_spread_opportunities` actually returns to its caller:
the function prints the ranking and either hits the bare `return` at
`arbitrage.py` line 275 or falls off the end — both paths return `None`,
never the opportunity list (`main.py` line 72 binds this `None` to
`spread_opps` and the Discord branch at line 85 can therefore never fire). -/
def spread_opportunities_return (A : Analyzer) (t : ℚ) (hz : Bool)
    (topN : Nat) : Option (List SpreadOpp) :=
  let opportunities := get_top_spread_opportunities A t hz
  if opportunities.isEmpty then none
  else
    let _displayed := opportunities.take topN
    none

/-- The value `get_top_triangular_inefficiencies` actually returns: `None` on
both paths (`arbitrage.py` lines 406–425), while `main.py` line 78 expects
the record list. -/
def triangular_inefficiencies_return (A : Analyzer) (hz : Bool) (minPct : ℚ)
    (topN : Nat) : Option (List TriOpp) :=
  let opportunities := get_top_triangular_inefficiencies A hz minPct
  if opportunities.isEmpty then none
  else
    let _displayed := opportunities.take topN
    none

/-- **C7 (refuted).** For every input analyzer the two single-hour analysis
operations return `None` to the caller, not an ordered list of records: the
record lists exist only inside the functions and are printed, never
returned. -/
theorem single_hour_operations_return_none :
    (∀ (A : Analyzer) (t : ℚ) (hz : Bool) (topN : Nat),
      spread_opportunities_return A t hz topN = none) ∧
    (∀ (A : Analyzer) (hz : Bool) (minPct : ℚ) (topN : Nat),
      triangular_inefficiencies_return A hz minPct topN = none) := by
  constructor
  · intro A t hz topN
    unfold spread_opportunities_return
    dsimp only
    split
    · rfl
    · rfl
  · intro A hz minPct topN
    unfold triangular_inefficiencies_return
    dsimp only
    split
    · rfl
    · rfl
